import Mathlib

/-!
Verification of the balanced-ternary fixed-width arithmetic library.

The arithmetic operator suite (`Add`, `AddAssign`, `AddAssign<Trit>`, `Sub`,
`SubAssign`, `Mul`, `MulAssign`, `Div`, `DivAssign` for `Number<N>`) is
embedded from `src/number/binary_ops.rs`.  The leaf collaborators (the `Trit`
digit type with its carry arithmetic, negation, ordering, the `ZERO`
constant, `from_rev_iter`, the left shift and the `inc` increment) live in
modules that are not part of the sources; they are modelled from the spec,
each such definition says so in its doc comment.

A `Number<N>` is modelled as a `List Trit` of length `N`, most-significant
digit first, exactly as the source stores its digit array.
-/

/-- Modelled from the spec: a single balanced-ternary digit ("trit"), one of
NEGATIVE(-1), ZERO(0), POSITIVE(+1) (`Trit` in the missing `trit` module). -/
inductive Trit where
  | NEG : Trit
  | ZERO : Trit
  | POS : Trit
deriving DecidableEq, Repr

/-- Modelled from the spec: `SumResult`, the transient (result, carry) pair
returned by single-digit addition (missing `sum_result` module). -/
structure SumResult where
  result : Trit
  carry : Trit
deriving DecidableEq, Repr

/-- The integer value of a digit. -/
def Trit.toInt : Trit → Int
  | .NEG => -1
  | .ZERO => 0
  | .POS => 1

/-- Modelled from the spec: digit negation flips POSITIVE/NEGATIVE and fixes
ZERO (missing `trit` module, spec section 4.1). -/
def Trit.negate : Trit → Trit
  | .NEG => .POS
  | .ZERO => .ZERO
  | .POS => .NEG

/-- The digit denoting a given integer; integers outside {-1,0,1} do not
occur at the call sites. -/
def tritOfInt (i : Int) : Trit :=
  if i = -1 then .NEG else if i = 1 then .POS else .ZERO

/-- Round-to-nearest of raw/3 on the range [-3,3] of raw digit sums
(spec section 4.1). -/
def carryRound (raw : Int) : Int :=
  if raw ≤ -2 then -1 else if 2 ≤ raw then 1 else 0

/-- Modelled from the spec: `Trit::add_with_carry` (missing `trit` module,
spec section 4.1): raw = a + b + carry_in, carry_out = round(raw/3),
result = raw - 3*carry_out. -/
def Trit.addWithCarry (a b c : Trit) : SumResult :=
  let raw := a.toInt + b.toInt + c.toInt
  let carry := carryRound raw
  ⟨tritOfInt (raw - 3 * carry), tritOfInt carry⟩

/-- Modelled from the spec: `Trit::add`, single-digit addition without an
incoming carry, used by the single-digit increment (spec section 4.2); it is
add-with-carry with a ZERO carry-in. -/
def Trit.add (a b : Trit) : SumResult :=
  Trit.addWithCarry a b Trit.ZERO

/-- Value of a digit list read least-significant digit first. -/
def valLsd : List Trit → Int
  | [] => 0
  | t :: ts => t.toInt + 3 * valLsd ts

/-- Value of a number (digit list, most-significant first):
sum of digit[i] * 3^(N-1-i), spec section 3. -/
def val (l : List Trit) : Int :=
  valLsd l.reverse

/-- `Number::<N>::ZERO`, modelled from the spec: the all-ZERO-digit
sequence. -/
def zeroN (n : Nat) : List Trit :=
  List.replicate n Trit.ZERO

/-- The number whose value is 1 (`ONE` of the spec's testable properties):
all ZERO digits except a POSITIVE least-significant digit. -/
def oneN (n : Nat) : List Trit :=
  List.replicate (n - 1) Trit.ZERO ++ [Trit.POS]

/-- The right-to-left scan of `Add::add` (binary_ops.rs lines 11-23): zip the
reversed digit lists and thread the carry through `add_with_carry`, starting
from a ZERO carry; the carry out of the last position is dropped. -/
def addLsd : List Trit → List Trit → Trit → List Trit
  | x :: xs, y :: ys, c =>
    let s := Trit.addWithCarry x y c
    s.result :: addLsd xs ys s.carry
  | _, _, _ => []

/-- `Add::add` for `Number<N>` (binary_ops.rs lines 11-23): reverse both
operands, scan with carry, and rebuild the number from the reversed result
(`from_rev_iter`, modelled from the spec as restoring most-significant-first
order). -/
def addList (a b : List Trit) : List Trit :=
  (addLsd a.reverse b.reverse Trit.ZERO).reverse

-- Sanity checks for the embedding, from the repository's own test values:
-- 23 = "+0--", 33 = "++-0", 23 + 33 = 56 = "+-0+-" at width 8.
example : val [Trit.POS, Trit.ZERO, Trit.NEG, Trit.NEG] = 23 := by decide
example : val [Trit.POS, Trit.POS, Trit.NEG, Trit.ZERO] = 33 := by decide
example :
    addList
      [Trit.ZERO, Trit.ZERO, Trit.ZERO, Trit.ZERO, Trit.POS, Trit.ZERO, Trit.NEG, Trit.NEG]
      [Trit.ZERO, Trit.ZERO, Trit.ZERO, Trit.ZERO, Trit.POS, Trit.POS, Trit.NEG, Trit.ZERO] =
      [Trit.ZERO, Trit.ZERO, Trit.ZERO, Trit.POS, Trit.NEG, Trit.ZERO, Trit.POS, Trit.NEG] := by
  decide

/-- The in-place visit of `AddAssign::add_assign` (binary_ops.rs lines
27-39): `for_each` over the reversed zip, mutating each visited position of
the left operand with an external carry variable.  Positions of the left
operand that the zip does not visit keep their digits. -/
def addAssignAux : List Trit → List Trit → Trit → List Trit
  | x :: xs, y :: ys, c =>
    let s := Trit.addWithCarry x y c
    s.result :: addAssignAux xs ys s.carry
  | xs, _, _ => xs

/-- `AddAssign::add_assign` for `Number<N>` (binary_ops.rs lines 27-39):
the resulting digit list held by the mutated left operand. -/
def addAssignList (a b : List Trit) : List Trit :=
  (addAssignAux a.reverse b.reverse Trit.ZERO).reverse

/-- The carry-propagation loop of `AddAssign<Trit>::add_assign`
(binary_ops.rs lines 43-55) over the reversed digit list: stop as soon as
the carry is ZERO or the digits run out, otherwise add the carry to the
current digit and continue with the new carry. -/
def incLsd : List Trit → Trit → List Trit
  | [], _ => []
  | t :: ts, c =>
    if c = Trit.ZERO then t :: ts
    else
      let s := Trit.add t c
      s.result :: incLsd ts s.carry

/-- `AddAssign<Trit>::add_assign` for `Number<N>` (binary_ops.rs lines
43-55): the single-digit increment, applied at the least-significant end. -/
def addAssignTrit (a : List Trit) (rhs : Trit) : List Trit :=
  (incLsd a.reverse rhs).reverse

/-- Modelled from the spec: `Neg::neg` for `Number<N>` (missing from the
sources; spec section 6: "a pure per-digit sign flip"). -/
def negList (a : List Trit) : List Trit :=
  a.map Trit.negate

/-- `Sub::sub` for `Number<N>` (binary_ops.rs lines 61-63):
`self + -rhs`. -/
def subList (a b : List Trit) : List Trit :=
  addList a (negList b)

/-- `SubAssign::sub_assign` for `Number<N>` (binary_ops.rs lines 67-69):
`*self += -rhs`. -/
def subAssignList (a b : List Trit) : List Trit :=
  addAssignList a (negList b)

/-- Modelled from the spec: the fixed-width left shift by one position
(`rhs_shifted <<= 1`, missing from the sources; spec section 4.4: "left-shift
the running multiplier copy by one position (multiply by 3)"): the
most-significant digit is dropped and a ZERO enters at the
least-significant end. -/
def shl1 : List Trit → List Trit
  | [] => []
  | _ :: xs => xs ++ [Trit.ZERO]

/-- The first `k` outputs of the `rhs_shifter` generator of `Mul::mul`
(binary_ops.rs lines 80-85): `r`, `r << 1`, `r << 2`, ... -/
def shiftedCopies : Nat → List Trit → List (List Trit)
  | 0, _ => []
  | k + 1, r => r :: shiftedCopies k (shl1 r)

/-- The `filter_map` arm of `Mul::mul` (binary_ops.rs lines 89-95): a NEG
digit contributes the negated shifted multiplier, ZERO contributes nothing,
POS contributes the shifted multiplier. -/
def mulContrib (t : Trit) (r : List Trit) : Option (List Trit) :=
  match t with
  | .NEG => some (negList r)
  | .ZERO => none
  | .POS => some r

/-- `Mul::mul` for `Number<N>` (binary_ops.rs lines 76-97): zip the reversed
digits of the left operand with the stream of shifted copies of the right
operand, keep the POS/NEG contributions, and sum them (the `Sum` instance is
modelled from the spec, section 4.4: fold with `+` from an all-ZERO
accumulator). -/
def mulList (a b : List Trit) : List Trit :=
  ((a.reverse.zip (shiftedCopies a.length b)).filterMap fun p => mulContrib p.1 p.2).foldl
    addList (zeroN a.length)

/-- `MulAssign::mul_assign` for `Number<N>` (binary_ops.rs lines 101-110):
`*self = *self * rhs`. -/
def mulAssignList (a b : List Trit) : List Trit :=
  mulList a b

/-- Modelled from the spec: the strict `<` of the derived lexicographic
order on the digit array (missing from the sources; spec section 6:
"positional digit comparison, most-significant digit dominates", with
NEGATIVE < ZERO < POSITIVE on digits). -/
def ltB : List Trit → List Trit → Bool
  | x :: xs, y :: ys => if x = y then ltB xs ys else decide (x.toInt < y.toInt)
  | [], _ :: _ => true
  | _, _ => false

/-- Modelled from the spec: `Number::inc`, the quotient-counter increment of
the division loop (missing from the sources; spec section 4.5: "increment a
quotient counter by one (using the single-digit increment primitive from
section 4.2)"). -/
def inc (q : List Trit) : List Trit :=
  addAssignTrit q Trit.POS

-- Sanity: 23 * 33 = 759 = "+00+0+0" at width 8, from the repository tests.
example :
    mulList
      [Trit.ZERO, Trit.ZERO, Trit.ZERO, Trit.ZERO, Trit.POS, Trit.ZERO, Trit.NEG, Trit.NEG]
      [Trit.ZERO, Trit.ZERO, Trit.ZERO, Trit.ZERO, Trit.POS, Trit.POS, Trit.NEG, Trit.ZERO] =
      [Trit.ZERO, Trit.POS, Trit.ZERO, Trit.ZERO, Trit.POS, Trit.ZERO, Trit.POS, Trit.ZERO] := by
  decide

theorem addWithCarry_spec (a b c : Trit) :
    3 * (Trit.addWithCarry a b c).carry.toInt + (Trit.addWithCarry a b c).result.toInt =
      a.toInt + b.toInt + c.toInt := by
  cases a <;> cases b <;> cases c <;> decide

theorem tritToInt_bound (t : Trit) : t.toInt = -1 ∨ t.toInt = 0 ∨ t.toInt = 1 := by
  cases t <;> simp [Trit.toInt]

theorem addWithCarry_zero_zero (x : Trit) :
    Trit.addWithCarry x Trit.ZERO Trit.ZERO = ⟨x, Trit.ZERO⟩ := by
  cases x <;> decide

theorem tritAdd_eq_addWithCarry (x c : Trit) :
    Trit.add x c = Trit.addWithCarry x Trit.ZERO c := by
  cases x <;> cases c <;> decide

theorem negate_toInt (t : Trit) : t.negate.toInt = -t.toInt := by
  cases t <;> decide

theorem addLsd_length (x y : List Trit) (c : Trit) :
    (addLsd x y c).length = min x.length y.length := by
  induction x generalizing y c with
  | nil => cases y <;> simp [addLsd]
  | cons t ts ih =>
    cases y with
    | nil => simp [addLsd]
    | cons u us =>
      simp [addLsd, ih, Nat.succ_min_succ]

theorem addList_length (a b : List Trit) :
    (addList a b).length = min a.length b.length := by
  simp [addList, addLsd_length]

theorem addAssignAux_length (x y : List Trit) (c : Trit) :
    (addAssignAux x y c).length = x.length := by
  induction x generalizing y c with
  | nil => cases y <;> simp [addAssignAux]
  | cons t ts ih =>
    cases y with
    | nil => simp [addAssignAux]
    | cons u us => simp [addAssignAux, ih]

theorem incLsd_length (x : List Trit) (c : Trit) :
    (incLsd x c).length = x.length := by
  induction x generalizing c with
  | nil => simp [incLsd]
  | cons t ts ih =>
    by_cases h : c = Trit.ZERO <;> simp [incLsd, h, ih]

theorem addAssignTrit_length (a : List Trit) (c : Trit) :
    (addAssignTrit a c).length = a.length := by
  simp [addAssignTrit, incLsd_length]

theorem inc_length (q : List Trit) : (inc q).length = q.length := by
  simp [inc, addAssignTrit_length]

theorem negList_length (a : List Trit) : (negList a).length = a.length := by
  simp [negList]

theorem zeroN_length (n : Nat) : (zeroN n).length = n := by
  simp [zeroN]

theorem shl1_length (a : List Trit) : (shl1 a).length = a.length := by
  cases a <;> simp [shl1]

theorem valLsd_replicate_zero (n : Nat) : valLsd (List.replicate n Trit.ZERO) = 0 := by
  induction n with
  | zero => simp [valLsd]
  | succ k ih => simp [List.replicate_succ, valLsd, Trit.toInt, ih]

theorem val_zeroN (n : Nat) : val (zeroN n) = 0 := by
  simp [val, zeroN, List.reverse_replicate, valLsd_replicate_zero]

theorem valLsd_negList (a : List Trit) : valLsd (a.map Trit.negate) = -valLsd a := by
  induction a with
  | nil => simp [valLsd]
  | cons t ts ih => simp [valLsd, negate_toInt, ih]; ring

theorem val_negList (a : List Trit) : val (negList a) = -val a := by
  simp only [val, negList]
  rw [← List.map_reverse, valLsd_negList]

theorem valLsd_bound (l : List Trit) : 2 * |valLsd l| ≤ 3 ^ l.length - 1 := by
  induction l with
  | nil => simp [valLsd]
  | cons t ts ih =>
    have ht : |t.toInt| ≤ 1 := by cases t <;> decide
    have h3 : |(3 : Int) * valLsd ts| = 3 * |valLsd ts| := by
      rw [abs_mul]; norm_num
    have habs : |valLsd (t :: ts)| ≤ |t.toInt| + 3 * |valLsd ts| := by
      calc |valLsd (t :: ts)| = |t.toInt + 3 * valLsd ts| := rfl
        _ ≤ |t.toInt| + |(3 : Int) * valLsd ts| := abs_add _ _
        _ = |t.toInt| + 3 * |valLsd ts| := by rw [h3]
    have hpow : (3 : Int) ^ (t :: ts).length = 3 * 3 ^ ts.length := by
      simp [pow_succ]; ring
    rw [hpow]
    linarith

theorem val_bound (l : List Trit) : 2 * |val l| ≤ 3 ^ l.length - 1 := by
  have h := valLsd_bound l.reverse
  simpa [val] using h

theorem valLsd_addLsd (x : List Trit) :
    ∀ (y : List Trit) (c : Trit), x.length = y.length →
      valLsd (addLsd x y c) ≡ valLsd x + valLsd y + c.toInt [ZMOD (3 : Int) ^ x.length] := by
  induction x with
  | nil =>
    intro y c h
    cases y with
    | nil => simpa [addLsd, valLsd] using Int.modEq_one
    | cons u us => simp at h
  | cons t ts ih =>
    intro y c h
    cases y with
    | nil => simp at h
    | cons u us =>
      have hlen : ts.length = us.length := by simpa using h
      have hs := addWithCarry_spec t u c
      set s := Trit.addWithCarry t u c with hsdef
      have htail := (ih us s.carry hlen).mul_left' (c := 3)
      have hres : s.result.toInt = t.toInt + u.toInt + c.toInt - 3 * s.carry.toInt := by
        linarith
      have hpow : (3 : Int) * 3 ^ ts.length = 3 ^ (t :: ts).length := by
        simp [pow_succ]; ring
      calc valLsd (addLsd (t :: ts) (u :: us) c)
          = s.result.toInt + 3 * valLsd (addLsd ts us s.carry) := rfl
        _ ≡ s.result.toInt + 3 * (valLsd ts + valLsd us + s.carry.toInt)
            [ZMOD (3 : Int) ^ (t :: ts).length] := by
            rw [← hpow]
            exact (htail).add_left _
        _ = valLsd (t :: ts) + valLsd (u :: us) + c.toInt := by
            simp [valLsd, hres]; ring

theorem val_addList (a b : List Trit) (h : a.length = b.length) :
    val (addList a b) ≡ val a + val b [ZMOD (3 : Int) ^ a.length] := by
  have h1 : a.reverse.length = b.reverse.length := by simpa using h
  have := valLsd_addLsd a.reverse b.reverse Trit.ZERO h1
  simpa [val, addList, Trit.toInt] using this

theorem modEq_window_eq {n : Nat} {u v : Int}
    (h : u ≡ v [ZMOD (3 : Int) ^ n])
    (hu : 2 * |u| ≤ 3 ^ n - 1) (hv : 2 * |v| ≤ 3 ^ n - 1) : u = v := by
  have hd : (3 : Int) ^ n ∣ v - u := Int.modEq_iff_dvd.mp h
  obtain ⟨k, hk⟩ := hd
  have hu1 : |u| ≤ (3 ^ n - 1) / 2 ∨ True := Or.inr trivial
  have habs : |v - u| ≤ 3 ^ n - 1 := by
    calc |v - u| ≤ |v| + |u| := abs_sub _ _
      _ ≤ 3 ^ n - 1 := by linarith
  have hpow : (0 : Int) < 3 ^ n := pow_pos (by norm_num) n
  have hk0 : k = 0 := by
    by_contra hk0
    have h1 : (1 : Int) ≤ |k| := Int.one_le_abs (by omega)
    have : (3 : Int) ^ n ≤ |3 ^ n * k| := by
      rw [abs_mul, abs_of_pos hpow]
      nlinarith
    rw [← hk] at this
    linarith
  have : v - u = 0 := by rw [hk, hk0, mul_zero]
  linarith

theorem val_addList_exact (a b : List Trit) (h : a.length = b.length)
    (hw : 2 * |val a + val b| ≤ 3 ^ a.length - 1) :
    val (addList a b) = val a + val b := by
  have hsum := val_addList a b h
  have hlen : (addList a b).length = a.length := by
    simp [addList_length, h]
  have hbound := val_bound (addList a b)
  rw [hlen] at hbound
  exact modEq_window_eq hsum hbound hw

theorem valLsd_append_single (l : List Trit) (t : Trit) :
    valLsd (l ++ [t]) = valLsd l + t.toInt * 3 ^ l.length := by
  induction l with
  | nil => simp [valLsd]
  | cons u us ih => simp [valLsd, ih, pow_succ]; ring

theorem val_cons (t : Trit) (ts : List Trit) :
    val (t :: ts) = t.toInt * 3 ^ ts.length + val ts := by
  simp [val, List.reverse_cons, valLsd_append_single]
  ring

theorem val_head_lt {x y : Trit} {xs ys : List Trit} (hlen : xs.length = ys.length)
    (hxy : x.toInt < y.toInt) : val (x :: xs) < val (y :: ys) := by
  have hxs := val_bound xs
  have hys := val_bound ys
  rw [← hlen] at hys
  have hP : (0 : Int) < 3 ^ xs.length := pow_pos (by norm_num) _
  have hxy1 : x.toInt + 1 ≤ y.toInt := hxy
  have hmul : (x.toInt + 1) * 3 ^ xs.length ≤ y.toInt * 3 ^ xs.length :=
    mul_le_mul_of_nonneg_right hxy1 (le_of_lt hP)
  rw [val_cons, val_cons, ← hlen]
  have h1 := le_abs_self (val xs)
  have h2 := neg_abs_le (val ys)
  linarith

theorem tritToInt_inj (x y : Trit) (h : x.toInt = y.toInt) : x = y := by
  cases x <;> cases y <;> revert h <;> decide

theorem ltB_iff_val : ∀ (a b : List Trit), a.length = b.length →
    (ltB a b = true ↔ val a < val b) := by
  intro a
  induction a with
  | nil =>
    intro b h
    cases b with
    | nil => simp [ltB, val, valLsd]
    | cons y ys => simp at h
  | cons x xs ih =>
    intro b h
    cases b with
    | nil => simp at h
    | cons y ys =>
      have hlen : xs.length = ys.length := by simpa using h
      by_cases hx : x = y
      · subst hx
        rw [show ltB (x :: xs) (x :: ys) = ltB xs ys by simp [ltB]]
        rw [ih ys hlen, val_cons, val_cons, hlen]
        constructor <;> intro <;> linarith
      · rw [show ltB (x :: xs) (y :: ys) = decide (x.toInt < y.toInt) by simp [ltB, hx]]
        rcases lt_trichotomy x.toInt y.toInt with hlt | heq | hgt
        · simp [hlt, val_head_lt hlen hlt]
        · exact absurd (tritToInt_inj x y heq) hx
        · have hgt2 := val_head_lt hlen.symm hgt
          constructor
          · intro hc
            simp at hc
            linarith
          · intro hc
            linarith

theorem ltB_total : ∀ (a b : List Trit), a.length = b.length → a ≠ b →
    ltB a b = true ∨ ltB b a = true := by
  intro a
  induction a with
  | nil =>
    intro b h hne
    cases b with
    | nil => exact absurd rfl hne
    | cons y ys => simp at h
  | cons x xs ih =>
    intro b h hne
    cases b with
    | nil => simp at h
    | cons y ys =>
      have hlen : xs.length = ys.length := by simpa using h
      by_cases hx : x = y
      · subst hx
        have hne2 : xs ≠ ys := fun hc => hne (by rw [hc])
        rcases ih ys hlen hne2 with h1 | h1
        · exact Or.inl (by simpa [ltB] using h1)
        · exact Or.inr (by simpa [ltB] using h1)
      · rcases lt_trichotomy x.toInt y.toInt with hlt | heq | hgt
        · exact Or.inl (by simp [ltB, hx]; exact hlt)
        · exact absurd (tritToInt_inj x y heq) hx
        · refine Or.inr ?_
          have hy : y ≠ x := fun hc => hx hc.symm
          simp [ltB, hy]
          exact hgt

theorem val_inj (a b : List Trit) (h : a.length = b.length) (hv : val a = val b) :
    a = b := by
  by_contra hne
  rcases ltB_total a b h hne with h1 | h1
  · have := (ltB_iff_val a b h).mp h1
    linarith
  · have := (ltB_iff_val b a h.symm).mp h1
    linarith

theorem le_val_of_ltB_false (a b : List Trit) (h : a.length = b.length)
    (hf : ltB a b = false) : val b ≤ val a := by
  by_contra hc
  have := (ltB_iff_val a b h).mpr (by linarith)
  rw [hf] at this
  exact Bool.noConfusion this

theorem addLsd_zeros : ∀ xs : List Trit,
    addLsd xs (List.replicate xs.length Trit.ZERO) Trit.ZERO = xs := by
  intro xs
  induction xs with
  | nil => simp [addLsd]
  | cons x rest ih =>
    simp only [List.length_cons, List.replicate_succ, addLsd,
      addWithCarry_zero_zero, ih]

theorem incLsd_eq_addLsd_zeros : ∀ (xs : List Trit) (c : Trit),
    incLsd xs c = addLsd xs (List.replicate xs.length Trit.ZERO) c := by
  intro xs
  induction xs with
  | nil => intro c; simp [incLsd, addLsd]
  | cons x rest ih =>
    intro c
    by_cases hc : c = Trit.ZERO
    · subst hc
      have hL : incLsd (x :: rest) Trit.ZERO = x :: rest := rfl
      rw [hL, List.length_cons, List.replicate_succ]
      simp only [addLsd, addWithCarry_zero_zero]
      rw [addLsd_zeros]
    · simp only [incLsd, if_neg hc, List.length_cons, List.replicate_succ, addLsd]
      rw [tritAdd_eq_addWithCarry, ih]

theorem incLsd_eq_addLsd_embed : ∀ (xs : List Trit) (c : Trit),
    incLsd xs c = addLsd xs (c :: List.replicate (xs.length - 1) Trit.ZERO) Trit.ZERO := by
  intro xs
  induction xs with
  | nil => intro c; simp [incLsd, addLsd]
  | cons x rest ih =>
    intro c
    clear ih
    by_cases hc : c = Trit.ZERO
    · subst hc
      have hL : incLsd (x :: rest) Trit.ZERO = x :: rest := rfl
      rw [hL]
      simp only [List.length_cons, Nat.add_sub_cancel, addLsd, addWithCarry_zero_zero]
      rw [addLsd_zeros]
    · simp only [incLsd, if_neg hc, List.length_cons, Nat.add_sub_cancel, addLsd]
      have hhead : Trit.add x c = Trit.addWithCarry x c Trit.ZERO := rfl
      rw [hhead, incLsd_eq_addLsd_zeros]

theorem addAssignTrit_eq_addList (a : List Trit) (c : Trit) :
    addAssignTrit a c = addList a (zeroN (a.length - 1) ++ [c]) := by
  unfold addAssignTrit addList
  congr 1
  have hrev : (zeroN (a.length - 1) ++ [c]).reverse =
      c :: List.replicate (a.length - 1) Trit.ZERO := by
    simp [zeroN, List.reverse_append, List.reverse_replicate]
  rw [hrev, incLsd_eq_addLsd_embed]
  congr 2
  simp

theorem val_embed (n : Nat) (c : Trit) : val (zeroN (n - 1) ++ [c]) = c.toInt := by
  simp [val, zeroN, List.reverse_append, List.reverse_replicate, valLsd,
    valLsd_replicate_zero]

theorem embed_length (n : Nat) (hn : 1 ≤ n) (c : Trit) :
    (zeroN (n - 1) ++ [c]).length = n := by
  simp [zeroN]
  omega

theorem addAssignAux_eq_addLsd : ∀ (x y : List Trit) (c : Trit), x.length = y.length →
    addAssignAux x y c = addLsd x y c := by
  intro x
  induction x with
  | nil =>
    intro y c h
    cases y with
    | nil => rfl
    | cons u us => simp at h
  | cons t ts ih =>
    intro y c h
    cases y with
    | nil => simp at h
    | cons u us =>
      have hlen : ts.length = us.length := by simpa using h
      simp only [addAssignAux, addLsd]
      rw [ih us _ hlen]

theorem addAssignList_eq_addList (a b : List Trit) (h : a.length = b.length) :
    addAssignList a b = addList a b := by
  unfold addAssignList addList
  rw [addAssignAux_eq_addLsd]
  simpa using h

theorem val_inc_mod (q : List Trit) (hn : 1 ≤ q.length) :
    val (inc q) ≡ val q + 1 [ZMOD (3 : Int) ^ q.length] := by
  unfold inc
  rw [addAssignTrit_eq_addList]
  have hlen : q.length = (zeroN (q.length - 1) ++ [Trit.POS]).length :=
    (embed_length q.length hn Trit.POS).symm
  have := val_addList q (zeroN (q.length - 1) ++ [Trit.POS]) hlen
  rwa [val_embed] at this

theorem val_inc_exact (q : List Trit) (hn : 1 ≤ q.length)
    (hw : 2 * |val q + 1| ≤ 3 ^ q.length - 1) : val (inc q) = val q + 1 := by
  have hmod := val_inc_mod q hn
  have hlen : (inc q).length = q.length := inc_length q
  have hbound := val_bound (inc q)
  rw [hlen] at hbound
  exact modEq_window_eq hmod hbound hw

/-- Proof-side recursive form of the shift-and-add fold of `Mul::mul`. -/
def mulAux : List Trit → List Trit → List Trit → List Trit
  | [], _, acc => acc
  | t :: ts, r, acc =>
    mulAux ts (shl1 r)
      (match t with
       | Trit.NEG => addList acc (negList r)
       | Trit.ZERO => acc
       | Trit.POS => addList acc r)

theorem mulContrib_neg_eq (r : List Trit) : mulContrib Trit.NEG r = some (negList r) := rfl

theorem mulContrib_zero_eq (r : List Trit) : mulContrib Trit.ZERO r = none := rfl

theorem mulContrib_pos_eq (r : List Trit) : mulContrib Trit.POS r = some r := rfl

theorem foldl_filterMap_eq_mulAux : ∀ (ds r acc : List Trit),
    ((ds.zip (shiftedCopies ds.length r)).filterMap fun p => mulContrib p.1 p.2).foldl
        addList acc = mulAux ds r acc := by
  intro ds
  induction ds with
  | nil => intro r acc; rfl
  | cons t ts ih =>
    intro r acc
    rw [show (t :: ts).length = ts.length + 1 from rfl]
    rw [show shiftedCopies (ts.length + 1) r = r :: shiftedCopies ts.length (shl1 r) from rfl]
    rw [List.zip_cons_cons]
    cases t <;>
      simp only [List.filterMap_cons, mulContrib_neg_eq, mulContrib_zero_eq,
        mulContrib_pos_eq, List.foldl_cons, mulAux] <;>
      rw [ih]

theorem mulList_eq_mulAux (a b : List Trit) :
    mulList a b = mulAux a.reverse b (zeroN a.length) := by
  unfold mulList
  rw [show a.length = a.reverse.length by simp]
  exact foldl_filterMap_eq_mulAux a.reverse b (zeroN a.reverse.length)

theorem mulAux_length : ∀ (ds r acc : List Trit), r.length = acc.length →
    (mulAux ds r acc).length = acc.length := by
  intro ds
  induction ds with
  | nil => intro r acc h; rfl
  | cons t ts ih =>
    intro r acc h
    cases t <;> simp only [mulAux]
    · rw [ih (shl1 r) _ (by simp [shl1_length, addList_length, negList_length, h]),
        addList_length, negList_length, h, min_self]
    · exact ih (shl1 r) acc (by simp [shl1_length, h])
    · rw [ih (shl1 r) _ (by simp [shl1_length, addList_length, h]),
        addList_length, h, min_self]

theorem val_shl1 (r : List Trit) :
    val (shl1 r) ≡ 3 * val r [ZMOD (3 : Int) ^ r.length] := by
  cases r with
  | nil => simp [shl1, val, valLsd]
  | cons t ts =>
    have hv : val (shl1 (t :: ts)) = 3 * val ts := by
      simp [shl1, val, List.reverse_append, valLsd, Trit.toInt]
    rw [hv]
    rw [Int.modEq_iff_dvd]
    refine ⟨t.toInt, ?_⟩
    rw [val_cons]
    simp [pow_succ]
    ring

theorem mulAux_val (n : Nat) : ∀ (ds r acc : List Trit), r.length = n → acc.length = n →
    val (mulAux ds r acc) ≡ val acc + valLsd ds * val r [ZMOD (3 : Int) ^ n] := by
  intro ds
  induction ds with
  | nil =>
    intro r acc hr hacc
    simp [mulAux, valLsd]
  | cons t ts ih =>
    intro r acc hr hacc
    have hshl : (shl1 r).length = n := by rw [shl1_length, hr]
    have hstep : ∀ acc2 : List Trit, acc2.length = n →
        val (mulAux ts (shl1 r) acc2) ≡ val acc2 + valLsd ts * val (shl1 r)
          [ZMOD (3 : Int) ^ n] := fun acc2 h2 => ih (shl1 r) acc2 hshl h2
    have hs3 : valLsd ts * val (shl1 r) ≡ valLsd ts * (3 * val r)
        [ZMOD (3 : Int) ^ n] := by
      have := val_shl1 r
      rw [hr] at this
      exact this.mul_left (valLsd ts)
    cases t <;> simp only [mulAux]
    · have hlen2 : acc.length = (negList r).length := by rw [negList_length, hr, hacc]
      have hadd := val_addList acc (negList r) hlen2
      rw [val_negList, hacc] at hadd
      have hacc2 : (addList acc (negList r)).length = n := by
        rw [addList_length, negList_length, hr, hacc, min_self]
      have h1 := hstep _ hacc2
      have h2 := (hadd.add_right (valLsd ts * val (shl1 r)))
      have h3 := h1.trans h2
      have h4 := h3.trans ((hs3).add_left (val acc + -val r))
      have : val acc + -val r + valLsd ts * (3 * val r) =
          val acc + valLsd (Trit.NEG :: ts) * val r := by
        simp [valLsd, Trit.toInt]; ring
      rwa [this] at h4
    · have h1 := hstep acc hacc
      have h4 := h1.trans ((hs3).add_left (val acc))
      have : val acc + valLsd ts * (3 * val r) =
          val acc + valLsd (Trit.ZERO :: ts) * val r := by
        simp [valLsd, Trit.toInt]; ring
      rwa [this] at h4
    · have hlen2 : acc.length = r.length := by rw [hr, hacc]
      have hadd := val_addList acc r hlen2
      rw [hacc] at hadd
      have hacc2 : (addList acc r).length = n := by
        rw [addList_length, hr, hacc, min_self]
      have h1 := hstep _ hacc2
      have h2 := (hadd.add_right (valLsd ts * val (shl1 r)))
      have h3 := h1.trans h2
      have h4 := h3.trans ((hs3).add_left (val acc + val r))
      have : val acc + val r + valLsd ts * (3 * val r) =
          val acc + valLsd (Trit.POS :: ts) * val r := by
        simp [valLsd, Trit.toInt]; ring
      rwa [this] at h4

theorem mulList_length (a b : List Trit) (h : b.length = a.length) :
    (mulList a b).length = a.length := by
  rw [mulList_eq_mulAux]
  rw [mulAux_length a.reverse b (zeroN a.length) (by simp [zeroN, h])]
  simp [zeroN]

theorem val_mulList (a b : List Trit) (h : b.length = a.length) :
    val (mulList a b) ≡ val a * val b [ZMOD (3 : Int) ^ a.length] := by
  rw [mulList_eq_mulAux]
  have := mulAux_val a.length a.reverse b (zeroN a.length) h (by simp [zeroN])
  rw [val_zeroN] at this
  have hval : valLsd a.reverse = val a := rfl
  rw [hval] at this
  simpa using this

theorem subList_length (a b : List Trit) :
    (subList a b).length = min a.length b.length := by
  simp [subList, addList_length, negList_length]

theorem val_subList (a b : List Trit) (h : a.length = b.length) :
    val (subList a b) ≡ val a - val b [ZMOD (3 : Int) ^ a.length] := by
  unfold subList
  have hlen : a.length = (negList b).length := by rw [negList_length, h]
  have := val_addList a (negList b) hlen
  rw [val_negList] at this
  rwa [sub_eq_add_neg]

theorem val_subList_exact (a b : List Trit) (h : a.length = b.length)
    (hw : 2 * |val a - val b| ≤ 3 ^ a.length - 1) :
    val (subList a b) = val a - val b := by
  unfold subList
  have hlen : a.length = (negList b).length := by rw [negList_length, h]
  have := val_addList_exact a (negList b) hlen (by rw [val_negList, ← sub_eq_add_neg]; exact hw)
  rwa [val_negList, ← sub_eq_add_neg] at this

theorem abs_len_self (x : List Trit) :
    (if ltB x (zeroN x.length) = true then negList x else x).length = x.length := by
  split <;> simp [negList_length]

theorem abs_len_eq (b : List Trit) (n : Nat) (h : b.length = n) :
    (if ltB b (zeroN b.length) = true then negList b else b).length = n := by
  rw [abs_len_self, h]

theorem val_ne_zero_of_ne_zeroN (x : List Trit) (hx : x ≠ zeroN x.length) :
    val x ≠ 0 := by
  intro h0
  apply hx
  exact val_inj x (zeroN x.length) (by simp [zeroN_length]) (by rw [h0, val_zeroN])

theorem abs_val_eq (x : List Trit) :
    val (if ltB x (zeroN x.length) = true then negList x else x) = |val x| := by
  by_cases hlt : ltB x (zeroN x.length) = true
  · rw [if_pos hlt, val_negList]
    have := (ltB_iff_val x (zeroN x.length) (by simp [zeroN_length])).mp hlt
    rw [val_zeroN] at this
    rw [abs_of_neg this]
  · rw [if_neg hlt]
    have := le_val_of_ltB_false x (zeroN x.length) (by simp [zeroN_length])
      (by simpa using hlt)
    rw [val_zeroN] at this
    rw [abs_of_nonneg this]

theorem abs_val_pos (x : List Trit) (hx : x ≠ zeroN x.length) :
    0 < val (if ltB x (zeroN x.length) = true then negList x else x) := by
  rw [abs_val_eq]
  exact abs_pos.mpr (val_ne_zero_of_ne_zeroN x hx)

/-- The repeated-subtraction loop of `Div::div` (binary_ops.rs lines
132-136): while the absolute remainder is at least the absolute divisor,
subtract the divisor from the remainder and increment the quotient.  The
propositional arguments record the loop preconditions established by the
surrounding code of `div` (the divisor is positive and all three numbers
have width `n`); the loop terminates because the remainder's value strictly
decreases. -/
def divLoop (n : Nat) (d : List Trit) (hd : 0 < val d) (hdn : d.length = n)
    (r : List Trit) (hr : r.length = n) (q : List Trit) : List Trit :=
  if h : ltB r d = true then q
  else
    divLoop n d hd hdn (subList r d)
      (by rw [subList_length, hr, hdn, min_self]) (inc q)
termination_by (val r).toNat
decreasing_by
  have hrd : r.length = d.length := by rw [hr, hdn]
  have hle : val d ≤ val r := le_val_of_ltB_false r d hrd (by simpa using h)
  have hbound := val_bound r
  have hsub : val (subList r d) = val r - val d := by
    apply val_subList_exact r d hrd
    have habs : |val r - val d| ≤ |val r| := by
      rw [abs_of_nonneg (by linarith : (0 : Int) ≤ val r - val d)]
      have := le_abs_self (val r)
      linarith
    linarith
  simp only [hsub]
  omega

/-- `Div::div` for `Number<N>` (binary_ops.rs lines 116-143).  The
divide-by-zero panic is modelled by `none`; otherwise the quotient is
returned.  The argument `hab` records that both operands have the same
compile-time width. -/
def divList (a b : List Trit) (hab : b.length = a.length) : Option (List Trit) :=
  if hz : b = zeroN b.length then none
  else
    let absRemainder := if ltB a (zeroN a.length) = true then negList a else a
    let absDivisor := if ltB b (zeroN b.length) = true then negList b else b
    let quotient := divLoop a.length absDivisor (abs_val_pos b hz) (abs_len_eq b a.length hab)
      absRemainder (abs_len_self a) (zeroN a.length)
    some
      (if xor (ltB a (zeroN a.length)) (ltB b (zeroN b.length)) then negList quotient
       else quotient)

/-- `DivAssign::div_assign` for `Number<N>` (binary_ops.rs lines 147-149):
`*self = *self / divisor`.  The panic inside `div` aborts the operation
before the assignment back into `self`; `Except.error` carries the digits
the left operand still holds at that point. -/
def divAssignList (a b : List Trit) (hab : b.length = a.length) :
    Except (List Trit) (List Trit) :=
  match divList a b hab with
  | none => Except.error a
  | some q => Except.ok q

theorem length_pos_of_val_pos (d : List Trit) (hd : 0 < val d) : 1 ≤ d.length := by
  cases d with
  | nil => simp [val, valLsd] at hd
  | cons t ts => simp

theorem divLoop_spec (n : Nat) (d : List Trit) (hd : 0 < val d) (hdn : d.length = n) :
    ∀ (m : Nat) (r : List Trit) (hr : r.length = n) (q : List Trit),
      (val r).toNat ≤ m → q.length = n → 0 ≤ val r → 0 ≤ val q →
      2 * (val q * val d + val r) ≤ 3 ^ n - 1 →
      val (divLoop n d hd hdn r hr q) = val q + val r / val d ∧
        (divLoop n d hd hdn r hr q).length = n := by
  intro m
  induction m with
  | zero =>
    intro r hr q hm hq hr0 hq0 hinv
    have hr00 : val r = 0 := by omega
    have hlt : ltB r d = true := by
      rw [ltB_iff_val r d (by rw [hr, hdn]), hr00]
      exact hd
    rw [divLoop, dif_pos hlt]
    rw [hr00]
    rw [Int.zero_ediv]
    exact ⟨by ring, hq⟩
  | succ m ih =>
    intro r hr q hm hq hr0 hq0 hinv
    by_cases hlt : ltB r d = true
    · rw [divLoop, dif_pos hlt]
      have hrlt : val r < val d := (ltB_iff_val r d (by rw [hr, hdn])).mp hlt
      rw [Int.ediv_eq_zero_of_lt hr0 hrlt]
      exact ⟨by ring, hq⟩
    · rw [divLoop, dif_neg hlt]
      have hrd : r.length = d.length := by rw [hr, hdn]
      have hle : val d ≤ val r := le_val_of_ltB_false r d hrd (by simpa using hlt)
      have hbound := val_bound r
      have hsub : val (subList r d) = val r - val d := by
        apply val_subList_exact r d hrd
        have habs : |val r - val d| ≤ |val r| := by
          rw [abs_of_nonneg (by linarith : (0 : Int) ≤ val r - val d)]
          have := le_abs_self (val r)
          linarith
        linarith
      have hn1 : 1 ≤ n := hdn ▸ length_pos_of_val_pos d hd
      have hqd : val q ≤ val q * val d := le_mul_of_one_le_right hq0 hd
      have hwinc : 2 * |val q + 1| ≤ 3 ^ q.length - 1 := by
        rw [abs_of_nonneg (by linarith : (0 : Int) ≤ val q + 1), hq]
        linarith
      have hinc : val (inc q) = val q + 1 :=
        val_inc_exact q (hq ▸ hn1) hwinc
      have harg1 : (val (subList r d)).toNat ≤ m := by
        rw [hsub]
        omega
      have harg2 : (inc q).length = n := by rw [inc_length, hq]
      have harg3 : 0 ≤ val (subList r d) := by rw [hsub]; linarith
      have harg4 : 0 ≤ val (inc q) := by rw [hinc]; linarith
      have harg5 : 2 * (val (inc q) * val d + val (subList r d)) ≤ 3 ^ n - 1 := by
        rw [hinc, hsub]
        have : (val q + 1) * val d + (val r - val d) = val q * val d + val r := by ring
        rw [this]
        exact hinv
      obtain ⟨hv, hl⟩ := ih (subList r d)
        (by rw [subList_length, hr, hdn, min_self]) (inc q) harg1 harg2 harg3 harg4 harg5
      refine ⟨?_, hl⟩
      rw [hv, hinc, hsub]
      have hdne : val d ≠ 0 := by linarith
      have : (val r - val d) / val d = val r / val d - 1 := by
        have := Int.add_mul_ediv_right (val r) (-1) hdne
        simpa [sub_eq_add_neg] using this
      rw [this]
      ring

theorem ltB_zeroN_iff (x : List Trit) : ltB x (zeroN x.length) = true ↔ val x < 0 := by
  rw [ltB_iff_val x (zeroN x.length) (by simp [zeroN_length]), val_zeroN]

theorem ltB_zeroN_false_iff (x : List Trit) :
    ltB x (zeroN x.length) = false ↔ ¬ val x < 0 := by
  rw [← ltB_zeroN_iff]
  cases ltB x (zeroN x.length) <;> simp

theorem divList_spec (x y : List Trit) (h : y.length = x.length)
    (hy : y ≠ zeroN y.length) :
    ∃ q, divList x y h = some q ∧ q.length = x.length ∧
      val q = if (val x < 0) ≠ (val y < 0) then -(|val x| / |val y|)
              else |val x| / |val y| := by
  have hD : val (if ltB y (zeroN y.length) = true then negList y else y) = |val y| :=
    abs_val_eq y
  have hR : val (if ltB x (zeroN x.length) = true then negList x else x) = |val x| :=
    abs_val_eq x
  obtain ⟨hQv, hQl⟩ := divLoop_spec x.length
    (if ltB y (zeroN y.length) = true then negList y else y)
    (abs_val_pos y hy) (abs_len_eq y x.length h)
    ((val (if ltB x (zeroN x.length) = true then negList x else x)).toNat)
    (if ltB x (zeroN x.length) = true then negList x else x) (abs_len_self x)
    (zeroN x.length) le_rfl (zeroN_length x.length)
    (by rw [hR]; exact abs_nonneg _) (by rw [val_zeroN])
    (by rw [val_zeroN, hR]; simpa using val_bound x)
  rw [val_zeroN, hR, hD, zero_add] at hQv
  refine ⟨if xor (ltB x (zeroN x.length)) (ltB y (zeroN y.length)) = true then
      negList (divLoop x.length (if ltB y (zeroN y.length) = true then negList y else y)
        (abs_val_pos y hy) (abs_len_eq y x.length h)
        (if ltB x (zeroN x.length) = true then negList x else x) (abs_len_self x)
        (zeroN x.length))
    else
      divLoop x.length (if ltB y (zeroN y.length) = true then negList y else y)
        (abs_val_pos y hy) (abs_len_eq y x.length h)
        (if ltB x (zeroN x.length) = true then negList x else x) (abs_len_self x)
        (zeroN x.length), ?_, ?_, ?_⟩
  · simp only [divList, dif_neg hy]
  · split <;> simp [negList_length, hQl]
  · have hvalIf : ∀ (c : Bool) (L : List Trit),
        val (if c = true then negList L else L) = if c = true then -val L else val L := by
      intro c L
      cases c
      · simp
      · simp [val_negList]
    rw [hvalIf, hQv]
    have hcond : ((xor (ltB x (zeroN x.length)) (ltB y (zeroN y.length))) = true) ↔
        ((val x < 0) ≠ (val y < 0)) := by
      cases hxb : ltB x (zeroN x.length) <;> cases hyb : ltB y (zeroN y.length)
      · have hx0 := (ltB_zeroN_false_iff x).mp hxb
        have hy0 := (ltB_zeroN_false_iff y).mp hyb
        simp [hx0, hy0]
      · have hx0 := (ltB_zeroN_false_iff x).mp hxb
        have hy0 := (ltB_zeroN_iff y).mp hyb
        simp [hx0, hy0]
      · have hx0 := (ltB_zeroN_iff x).mp hxb
        have hy0 := (ltB_zeroN_false_iff y).mp hyb
        simp [hx0, hy0]
      · have hx0 := (ltB_zeroN_iff x).mp hxb
        have hy0 := (ltB_zeroN_iff y).mp hyb
        simp [hx0, hy0]
    by_cases hc : (val x < 0) ≠ (val y < 0)
    · rw [if_pos (hcond.mpr hc), if_pos hc]
    · rw [if_neg (fun hcc => hc (hcond.mp hcc)), if_neg hc]

theorem addWithCarry_negate (x : Trit) :
    Trit.addWithCarry x x.negate Trit.ZERO = ⟨Trit.ZERO, Trit.ZERO⟩ := by
  cases x <;> decide

theorem addLsd_negate_self : ∀ xs : List Trit,
    addLsd xs (xs.map Trit.negate) Trit.ZERO = List.replicate xs.length Trit.ZERO := by
  intro xs
  induction xs with
  | nil => rfl
  | cons x rest ih =>
    simp only [List.map_cons, addLsd, addWithCarry_negate, List.length_cons,
      List.replicate_succ]
    exact congrArg (Trit.ZERO :: ·) ih

theorem oneN_length (n : Nat) (hn : 1 ≤ n) : (oneN n).length = n := by
  simp [oneN]
  omega

theorem val_oneN (n : Nat) : val (oneN n) = 1 := by
  simp [oneN, val, List.reverse_append, List.reverse_replicate, valLsd,
    valLsd_replicate_zero, Trit.toInt]

theorem divList_none_of_zero (a b : List Trit) (h : b.length = a.length)
    (hz : b = zeroN b.length) : divList a b h = none := by
  simp only [divList, dif_pos hz]

/-- C4: for every pair of N-digit numbers x and y, the value represented by
x + y is congruent to value(x) + value(y) modulo 3^N — the addition is
truncating by construction, the carry produced out of the most-significant
position being dropped. -/
theorem add_value_mod_width (x y : List Trit) (n : Nat) (hx : x.length = n)
    (hy : y.length = n) :
    val (addList x y) ≡ val x + val y [ZMOD (3 : Int) ^ n] := by
  have := val_addList x y (by rw [hx, hy])
  rwa [hx] at this

/-- Witness for C4 at x = "+", y = "+" (width 1): 1 + 1 is congruent to 2
modulo 3. -/
theorem add_value_mod_width_witness :
    val (addList [Trit.POS] [Trit.POS]) ≡
      val [Trit.POS] + val [Trit.POS] [ZMOD (3 : Int) ^ 1] :=
  add_value_mod_width [Trit.POS] [Trit.POS] 1 rfl rfl

/-- C5: for every pair of N-digit numbers x and y, x - y is exactly
x + negate(y), where negate flips every digit of y; subtraction reduces
entirely to digit-wise negation followed by addition. -/
theorem sub_eq_add_negate (x y : List Trit) :
    subList x y = addList x (negList y) ∧ negList y = y.map Trit.negate :=
  ⟨rfl, rfl⟩

/-- C6: for every N-digit number x, x + negate(x) is the all-ZERO-digit
constant ZERO (the carry threaded through the addition stays ZERO at every
position). -/
theorem add_negate_self_eq_zero (x : List Trit) :
    addList x (negList x) = zeroN x.length := by
  unfold addList negList zeroN
  rw [← List.map_reverse, addLsd_negate_self]
  simp [List.reverse_replicate]

/-- C7: for every N-digit number x (N at least 1), x * ONE == x and
x * ZERO == ZERO under the shift-and-add multiplication, where ONE is the
number whose value is 1. -/
theorem mul_one_and_mul_zero (x : List Trit) (n : Nat) (hx : x.length = n)
    (hn : 1 ≤ n) :
    mulList x (oneN n) = x ∧ mulList x (zeroN n) = zeroN n := by
  constructor
  · have hlen : (oneN n).length = x.length := by rw [oneN_length n hn, hx]
    have hmod := val_mulList x (oneN n) hlen
    rw [val_oneN, mul_one] at hmod
    have hll : (mulList x (oneN n)).length = x.length := mulList_length x (oneN n) hlen
    have hb1 := val_bound (mulList x (oneN n))
    rw [hll] at hb1
    have heq : val (mulList x (oneN n)) = val x :=
      modEq_window_eq hmod hb1 (val_bound x)
    exact val_inj _ _ hll heq
  · have hlen : (zeroN n).length = x.length := by rw [zeroN_length, hx]
    have hmod := val_mulList x (zeroN n) hlen
    rw [val_zeroN, mul_zero] at hmod
    have hll : (mulList x (zeroN n)).length = x.length := mulList_length x (zeroN n) hlen
    have hb1 := val_bound (mulList x (zeroN n))
    rw [hll] at hb1
    have heq : val (mulList x (zeroN n)) = 0 :=
      modEq_window_eq hmod hb1
        (by
          have h1 : (1 : Int) ≤ 3 ^ x.length := by
            simpa using Int.add_one_le_iff.mpr (pow_pos (by norm_num : (0 : Int) < 3) x.length)
          simp
          omega)
    apply val_inj _ _ (by rw [hll, hx, zeroN_length])
    rw [heq, val_zeroN]

/-- Witness for C7 at x = "+-" (value 2), N = 2. -/
theorem mul_one_and_mul_zero_witness :
    mulList [Trit.POS, Trit.NEG] (oneN 2) = [Trit.POS, Trit.NEG] ∧
    mulList [Trit.POS, Trit.NEG] (zeroN 2) = zeroN 2 :=
  mul_one_and_mul_zero [Trit.POS, Trit.NEG] 2 rfl (by decide)

/-- C1: division by a non-zero divisor truncates toward zero — the quotient
q satisfies abs(q)*abs(y) <= abs(x) < (abs(q)+1)*abs(y) — and ZERO divided
by any non-zero y (negative included) is ZERO. -/
theorem div_truncates (x y : List Trit) (h : y.length = x.length)
    (hy : y ≠ zeroN y.length) :
    ∃ q, divList x y h = some q ∧
      |val q| * |val y| ≤ |val x| ∧
      |val x| < (|val q| + 1) * |val y| ∧
      (x = zeroN x.length → q = zeroN x.length) := by
  obtain ⟨q, hq, hql, hqv⟩ := divList_spec x y h hy
  have hB : 0 < |val y| := abs_pos.mpr (val_ne_zero_of_ne_zeroN y hy)
  have habsq : |val q| = |val x| / |val y| := by
    rw [hqv]
    split
    · rw [abs_neg]
      exact abs_of_nonneg (Int.ediv_nonneg (abs_nonneg _) (le_of_lt hB))
    · exact abs_of_nonneg (Int.ediv_nonneg (abs_nonneg _) (le_of_lt hB))
  refine ⟨q, hq, ?_, ?_, ?_⟩
  · rw [habsq]
    exact Int.ediv_mul_le (|val x|) (ne_of_gt hB)
  · rw [habsq]
    exact Int.lt_ediv_add_one_mul_self (|val x|) hB
  · intro hx0
    have hvx : val x = 0 := by rw [hx0, val_zeroN]
    have hq0 : val q = 0 := by
      rw [hqv, hvx]
      simp [Int.zero_ediv]
    exact val_inj q (zeroN x.length) (by rw [hql, zeroN_length])
      (by rw [hq0, val_zeroN])

/-- Witness for C1 at x = "++" (value 4), y = "0+" (value 1). -/
theorem div_truncates_witness :
    ∃ q, divList [Trit.POS, Trit.POS] [Trit.ZERO, Trit.POS] rfl = some q ∧
      |val q| * |val [Trit.ZERO, Trit.POS]| ≤ |val [Trit.POS, Trit.POS]| ∧
      |val [Trit.POS, Trit.POS]| < (|val q| + 1) * |val [Trit.ZERO, Trit.POS]| ∧
      ([Trit.POS, Trit.POS] = zeroN 2 → q = zeroN 2) :=
  div_truncates [Trit.POS, Trit.POS] [Trit.ZERO, Trit.POS] rfl (by decide)

/-- C2 counterexample: x = "0+" (value 1) and y = "-0" (value -3) are both
non-zero and exactly one of them is negative, yet x / y is the value 0,
which is not negative — the claimed sign rule fails when the quotient
magnitude is zero. -/
theorem div_sign_rule_counterexample :
    0 ≤ val [Trit.ZERO, Trit.POS] ∧ val [Trit.NEG, Trit.ZERO] < 0 ∧
    [Trit.ZERO, Trit.POS] ≠ zeroN 2 ∧ [Trit.NEG, Trit.ZERO] ≠ zeroN 2 ∧
    ∃ q, divList [Trit.ZERO, Trit.POS] [Trit.NEG, Trit.ZERO] rfl = some q ∧
      0 ≤ val q := by
  refine ⟨by decide, by decide, by decide, by decide, ?_⟩
  obtain ⟨q, hq, hql, hqv⟩ :=
    divList_spec [Trit.ZERO, Trit.POS] [Trit.NEG, Trit.ZERO] rfl (by decide)
  refine ⟨q, hq, ?_⟩
  rw [hqv]
  norm_num [val, valLsd, Trit.toInt]

/-- C2 (amended): for non-zero x and y of the same width, x / y is negative
iff exactly one of x, y is negative AND abs(y) <= abs(x) (that is, iff the
quotient magnitude is non-zero); when abs(x) < abs(y) the quotient is the
non-negative ZERO even though the operand signs differ. -/
theorem div_sign_rule_amended (x y : List Trit) (h : y.length = x.length)
    (hy : y ≠ zeroN y.length) :
    ∃ q, divList x y h = some q ∧
      (val q < 0 ↔ (((val x < 0) ≠ (val y < 0)) ∧ |val y| ≤ |val x|)) := by
  obtain ⟨q, hq, hql, hqv⟩ := divList_spec x y h hy
  have hB : 0 < |val y| := abs_pos.mpr (val_ne_zero_of_ne_zeroN y hy)
  have hA : 0 ≤ |val x| := abs_nonneg (val x)
  have hdivnn : 0 ≤ |val x| / |val y| := Int.ediv_nonneg hA (le_of_lt hB)
  refine ⟨q, hq, ?_⟩
  rw [hqv]
  split
  · rename_i hc
    constructor
    · intro hlt
      refine ⟨hc, ?_⟩
      by_contra hnot
      push_neg at hnot
      rw [Int.ediv_eq_zero_of_lt hA hnot] at hlt
      simp at hlt
    · rintro ⟨-, hBA⟩
      have h1 : 1 ≤ |val x| / |val y| := by
        rw [Int.le_ediv_iff_mul_le hB]
        simpa using hBA
      linarith
  · rename_i hc
    constructor
    · intro hlt
      linarith
    · rintro ⟨hcc, -⟩
      exact absurd hcc hc

/-- Witness for the amended C2 at x = "++" (value 4), y = "0-" (value -1). -/
theorem div_sign_rule_amended_witness :
    ∃ q, divList [Trit.POS, Trit.POS] [Trit.ZERO, Trit.NEG] rfl = some q ∧
      (val q < 0 ↔ (((val [Trit.POS, Trit.POS] < 0) ≠ (val [Trit.ZERO, Trit.NEG] < 0)) ∧
        |val [Trit.ZERO, Trit.NEG]| ≤ |val [Trit.POS, Trit.POS]|)) :=
  div_sign_rule_amended [Trit.POS, Trit.POS] [Trit.ZERO, Trit.NEG] rfl (by decide)

/-- C3: division signals the fatal divide-by-zero condition (modelled by
`none`) exactly when the divisor is the all-ZERO-digit number; for every
other divisor the operation completes with a quotient. -/
theorem div_fails_iff_divisor_zero (a b : List Trit) (h : b.length = a.length) :
    divList a b h = none ↔ b = zeroN b.length := by
  constructor
  · intro hn
    by_contra hz
    obtain ⟨q, hq, -, -⟩ := divList_spec a b h hz
    rw [hq] at hn
    exact Option.noConfusion hn
  · intro hz
    exact divList_none_of_zero a b h hz

/-- Witness for C3 at a = "+", b = "0": division by the zero digit list is
the fatal condition. -/
theorem div_fails_iff_divisor_zero_witness :
    divList [Trit.POS] [Trit.ZERO] rfl = none ↔ [Trit.ZERO] = zeroN 1 :=
  div_fails_iff_divisor_zero [Trit.POS] [Trit.ZERO] rfl

/-- C8: the in-place single-digit increment x += d (add at the
least-significant position, propagate the carry leftward, stop at the first
ZERO carry or at the most-significant position) computes exactly the full
N-digit addition of x with the number whose value is d. -/
theorem inc_eq_full_add (x : List Trit) (d : Trit) (hn : 1 ≤ x.length) :
    addAssignTrit x d = addList x (zeroN (x.length - 1) ++ [d]) ∧
    (zeroN (x.length - 1) ++ [d]).length = x.length ∧
    val (zeroN (x.length - 1) ++ [d]) = d.toInt :=
  ⟨addAssignTrit_eq_addList x d, embed_length x.length hn d, val_embed x.length d⟩

/-- Witness for C8 at x = "++" (value 4), d = POSITIVE. -/
theorem inc_eq_full_add_witness :
    addAssignTrit [Trit.POS, Trit.POS] Trit.POS =
      addList [Trit.POS, Trit.POS] (zeroN 1 ++ [Trit.POS]) ∧
    (zeroN 1 ++ [Trit.POS]).length = 2 ∧
    val (zeroN 1 ++ [Trit.POS]) = Trit.POS.toInt :=
  inc_eq_full_add [Trit.POS, Trit.POS] Trit.POS (by decide)

/-- C9: each in-place operator leaves in the left operand exactly the digit
sequence its pure counterpart returns: a += b matches a + b, a -= b matches
a - b, a *= b matches a * b, and for a non-zero divisor a /= b succeeds with
the digits of a / b. -/
theorem assign_ops_eq_pure (a b : List Trit) (h : b.length = a.length) :
    addAssignList a b = addList a b ∧
    subAssignList a b = subList a b ∧
    mulAssignList a b = mulList a b ∧
    (b ≠ zeroN b.length →
      ∃ q, divList a b h = some q ∧ divAssignList a b h = Except.ok q) := by
  refine ⟨addAssignList_eq_addList a b h.symm, ?_, rfl, ?_⟩
  · unfold subAssignList subList
    exact addAssignList_eq_addList a (negList b) (by rw [negList_length, h])
  · intro hz
    obtain ⟨q, hq, -, -⟩ := divList_spec a b h hz
    refine ⟨q, hq, ?_⟩
    unfold divAssignList
    rw [hq]

/-- Witness for C9 at a = "+-" (value 2), b = "0+" (value 1). -/
theorem assign_ops_eq_pure_witness :
    addAssignList [Trit.POS, Trit.NEG] [Trit.ZERO, Trit.POS] =
      addList [Trit.POS, Trit.NEG] [Trit.ZERO, Trit.POS] ∧
    subAssignList [Trit.POS, Trit.NEG] [Trit.ZERO, Trit.POS] =
      subList [Trit.POS, Trit.NEG] [Trit.ZERO, Trit.POS] ∧
    mulAssignList [Trit.POS, Trit.NEG] [Trit.ZERO, Trit.POS] =
      mulList [Trit.POS, Trit.NEG] [Trit.ZERO, Trit.POS] ∧
    ([Trit.ZERO, Trit.POS] ≠ zeroN 2 →
      ∃ q, divList [Trit.POS, Trit.NEG] [Trit.ZERO, Trit.POS] rfl = some q ∧
        divAssignList [Trit.POS, Trit.NEG] [Trit.ZERO, Trit.POS] rfl = Except.ok q) :=
  assign_ops_eq_pure [Trit.POS, Trit.NEG] [Trit.ZERO, Trit.POS] rfl

/-- C10: when the divisor is ZERO, in-place division raises the fatal
condition before any mutation of the left operand: the zero-divisor check
runs before any computation and before the assignment back into the left
operand, whose digit sequence is still `a` at the point the condition is
raised (the `Except.error` payload). -/
theorem div_assign_zero_keeps_lhs (a b : List Trit) (h : b.length = a.length)
    (hz : b = zeroN b.length) : divAssignList a b h = Except.error a := by
  unfold divAssignList
  rw [divList_none_of_zero a b h hz]

/-- Witness for C10 at a = "+-" (value 2), b = "00". -/
theorem div_assign_zero_keeps_lhs_witness :
    divAssignList [Trit.POS, Trit.NEG] [Trit.ZERO, Trit.ZERO] rfl =
      Except.error [Trit.POS, Trit.NEG] :=
  div_assign_zero_keeps_lhs [Trit.POS, Trit.NEG] [Trit.ZERO, Trit.ZERO] rfl (by decide)
